import Mathlib

/-!
Verification of the waylandify Exec-line flag-merge engine.

Shallow embedding of the Go source:
  * `parseCommandLine` and `updateExecCommand` (command tokenizer and flag merger),
  * `modifyDesktopContent` (Exec-line rewriter),
  * `findPWADesktopFiles` together with the standard library glob matcher
    `filepath.Match` that it calls.

Strings are modelled as lists of runes (`List Char`); Go iterates strings
rune by rune with byte indices, which the embedding reproduces via
`Char.utf8Size` where the byte index is observable (the end-of-input flush
in `parseCommandLine`).  The glob matcher is embedded at rune granularity,
which coincides with Go's byte-level scanning on the ASCII inputs considered
in the theorems below.  Recursions of the glob matcher that Go expresses as
loops over a strictly shrinking pattern are given a fuel argument equal to
the pattern length plus one, which is always sufficient since every
iteration consumes at least one pattern character.
-/

namespace Waylandify

set_option maxRecDepth 16384

/-- The single-quote character, written numerically. -/
def sq : Char := Char.ofNat 39

/-- The double-quote character. -/
def dq : Char := '"'

/-- Go `unicode.IsSpace`: the White_Space code points. -/
def goIsSpace (c : Char) : Bool :=
  let n := c.toNat
  n == 32 || n == 9 || n == 10 || n == 11 || n == 12 || n == 13 ||
  n == 0x85 || n == 0xA0 || n == 0x1680 ||
  (0x2000 ≤ n && n ≤ 0x200A) ||
  n == 0x2028 || n == 0x2029 || n == 0x202F || n == 0x205F || n == 0x3000

/-- Go `strings.TrimSpace`: drop leading and trailing white space. -/
def trimSpace (l : List Char) : List Char :=
  ((l.dropWhile goIsSpace).reverse.dropWhile goIsSpace).reverse

/-- Accumulator loop of Go `strings.Fields`: split around runs of white space. -/
def fieldsAux : List Char → List Char → List (List Char)
  | cur, [] => if cur.isEmpty then [] else [cur]
  | cur, c :: rest =>
    if goIsSpace c then (if cur.isEmpty then [] else [cur]) ++ fieldsAux [] rest
    else fieldsAux (cur ++ [c]) rest

/-- Go `strings.Fields`. -/
def fields (l : List Char) : List (List Char) := fieldsAux [] l

/-- The UTF-8 byte length of a string, Go `len(command)`. -/
def utf8Length (l : List Char) : Nat := (l.map Char.utf8Size).sum

/-- The loop of Go `parseCommandLine` (main.go): one iteration per rune `r`
at byte offset `pos`.  State: emitted `args`, current argument `cur`,
`inQ`/`qc` the quoting state.  After processing each rune the source checks
`i == len(command)-1` (a byte index) and, if the current argument is
nonempty, flushes it; `total` is the byte length of the whole command. -/
def parseLoop (total : Nat) :
    List Char → Nat → List (List Char) → List Char → Bool → Char →
    List (List Char) × List Char × Bool × Char
  | [], _, args, cur, inQ, qc => (args, cur, inQ, qc)
  | r :: rest, pos, args, cur, inQ, qc =>
    let st :=
      if inQ then
        if r == qc then (args, cur, false, qc)
        else (args, cur ++ [r], true, qc)
      else if r == dq || r == sq then (args, cur, true, r)
      else if r == ' ' then
        if cur.length > 0 then (args ++ [cur], ([] : List Char), false, qc)
        else (args, cur, false, qc)
      else (args, cur ++ [r], false, qc)
    let args2 := if pos == total - 1 && st.2.1.length > 0 then st.1 ++ [st.2.1] else st.1
    parseLoop total rest (pos + r.utf8Size) args2 st.2.1 st.2.2.1 st.2.2.2

/-- Go `parseCommandLine`: split a command string into arguments, handling
quoted sections; `none` models the unclosed-quote error. -/
def parseCommandLine (command : List Char) : Option (List (List Char)) :=
  let r := parseLoop (utf8Length command) command 0 [] [] false (Char.ofNat 0)
  if r.2.2.1 then none else some r.1

/-- Go `strings.HasPrefix(arg, "-")`. -/
def startsDash (arg : List Char) : Bool := arg.head? == some '-'

/-- The partition loop of `updateExecCommand` step 2: existing arguments are
split into flag-like tokens and other (positional) tokens, appending in
original order. -/
def classifyArgs (args : List (List Char)) : List (List Char) × List (List Char) :=
  args.foldl
    (fun acc arg =>
      if startsDash arg then (acc.1 ++ [arg], acc.2) else (acc.1, acc.2 ++ [arg]))
    ([], [])

/-- The dedup-append loop of `updateExecCommand` step 3: walk `flagsToAdd`,
appending each flag not already in the seen set, and recording appended
flags in the seen set (Go's `existingSet` map is modelled as a list with
membership lookup). -/
def addFlagsLoop : List (List Char) → List (List Char) → List (List Char) → List (List Char)
  | [], finalFlags, _ => finalFlags
  | f :: rest, finalFlags, seen =>
    if f ∈ seen then addFlagsLoop rest finalFlags seen
    else addFlagsLoop rest (finalFlags ++ [f]) (seen ++ [f])

/-- The re-quoting pass of `updateExecCommand` step 4: wrap any token that
contains a space and does not already start with a double quote. -/
def requote (part : List Char) : List Char :=
  if part.contains ' ' && !(part.head? == some dq) then dq :: part ++ [dq] else part

/-- The token list `updateExecCommand` works on: the parse result, or the
`strings.Fields` fallback when parsing fails. -/
def goParts (trimmedCmd : List Char) : List (List Char) :=
  match parseCommandLine trimmedCmd with
  | some parts => parts
  | none => fields trimmedCmd

/-- The token list `newParts` built by `updateExecCommand` steps 2 to 4
(before re-quoting and joining): executable, merged flag region, then the
other arguments.  Empty when the command has no tokens. -/
def updateExecParts (execCmd : List Char) (flagsToAdd : List (List Char)) : List (List Char) :=
  match goParts (trimSpace execCmd) with
  | [] => []
  | executable :: args =>
    let (existingFlags, otherArgs) := classifyArgs args
    let finalFlags := addFlagsLoop flagsToAdd existingFlags existingFlags
    executable :: (finalFlags ++ otherArgs)

/-- Go `updateExecCommand`: add missing flags to an Exec command string. -/
def updateExecCommand (execCmd : List Char) (flagsToAdd : List (List Char)) : List Char :=
  if flagsToAdd.length == 0 then execCmd
  else List.intercalate [' '] ((updateExecParts execCmd flagsToAdd).map requote)

/-- Split on newline characters; mirrors the segmentation performed by
`bufio.Scanner` with `ScanLines` before the final-segment and carriage
return adjustments. -/
def splitNl : List Char → List Char → List (List Char)
  | cur, [] => [cur]
  | cur, c :: rest =>
    if c == '\n' then cur :: splitNl [] rest else splitNl (cur ++ [c]) rest

/-- `dropCR` of `bufio.ScanLines`: strip one trailing carriage return. -/
def dropCR (l : List Char) : List Char :=
  if l.getLast? == some '\r' then l.dropLast else l

/-- The sequence of lines produced by `bufio.Scanner`/`ScanLines` on
`content`: newline-separated segments, with an empty final segment (input
ending in a newline) yielding no further token, and one trailing carriage
return stripped from each line. -/
def scanLines (content : List Char) : List (List Char) :=
  let segs := splitNl [] content
  let segs2 := if segs.getLast? == some [] then segs.dropLast else segs
  segs2.map dropCR

/-- The test `execPattern.FindStringSubmatch(line)` with pattern
`^(Exec=)(.*)$`: on a single line (no newline characters) this succeeds
exactly when the line starts with `Exec=`. -/
def isExecLine (line : List Char) : Bool := ("Exec=".data).isPrefixOf line

/-- One iteration of the scan loop of `modifyDesktopContent`: a matching
line is rebuilt as `Exec=` plus the merged command and counted; every line
is written back with a single trailing newline. -/
def modifyStep (flags : List (List Char)) (acc : List Char × Nat) (line : List Char) :
    List Char × Nat :=
  if isExecLine line then
    (acc.1 ++ (("Exec=".data) ++ updateExecCommand (line.drop 5) flags) ++ ['\n'],
     acc.2 + 1)
  else (acc.1 ++ line ++ ['\n'], acc.2)

/-- Go `modifyDesktopContent` (project file `part_000`): rewrite every
`Exec=` line through `updateExecCommand`, writing each line back with a
single trailing newline, and count the matching lines. -/
def modifyDesktopContent (content : List Char) (flags : List (List Char)) :
    List Char × Nat :=
  (scanLines content).foldl (modifyStep flags) ([], 0)

/-! ### The glob matcher `path/filepath.Match` (Unix rules)

`MRes` is the result of `matchChunk`: `ok rest` is `(rest, true, nil)`,
`fail` is `("", false, nil)`, `bad` is `("", false, ErrBadPattern)`.
The `utf8.RuneError`-with-size-one check of `getEsc` cannot fire in a
rune-sequence model (it detects invalid UTF-8 bytes) and is omitted. -/

inductive MRes where
  | ok (rest : List Char)
  | fail
  | bad
deriving DecidableEq

/-- Go `getEsc`: read one (possibly backslash-escaped) class character. -/
def getEsc : List Char → Option (Char × List Char)
  | [] => none
  | c :: rest =>
    if c == '-' || c == ']' then none
    else if c == '\\' then
      match rest with
      | [] => none
      | d :: rest2 => if rest2.isEmpty then none else some (d, rest2)
    else if rest.isEmpty then none else some (c, rest)

/-- The range-parsing loop inside the `[` case of `matchChunk`: `r` is the
rune being classified, `m` the running match flag, `n` the number of ranges
seen.  Returns the match flag and the rest of the chunk, or `none` for a
bad pattern.  Fuel bounds the recursion; `chunk.length + 1` suffices. -/
def rangeLoopF : Nat → Char → List Char → Bool → Nat → Option (Bool × List Char)
  | 0, _, _, _, _ => none
  | fuel + 1, r, chunk, m, n =>
    if chunk.head? == some ']' && !(n == 0) then some (m, chunk.tail)
    else
      match getEsc chunk with
      | none => none
      | some (lo, chunk1) =>
        let hiStep : Option (Char × List Char) :=
          if chunk1.head? == some '-' then getEsc chunk1.tail else some (lo, chunk1)
        match hiStep with
        | none => none
        | some (hi, chunk2) =>
          rangeLoopF fuel r chunk2 (if lo ≤ r ∧ r ≤ hi then true else m) (n + 1)

/-- Go `matchChunk` with its `failed` flag: after a mismatch the chunk is
still consumed so that malformed syntax is reported.  Fuel bounds the
recursion; `chunk.length + 1` suffices. -/
def matchChunkF : Nat → List Char → List Char → Bool → MRes
  | 0, _, _, _ => .bad
  | fuel + 1, chunk, s, failed0 =>
    match chunk with
    | [] => if failed0 then .fail else .ok s
    | c :: chunkRest =>
      let failed := failed0 || s.isEmpty
      if c == '[' then
        let r := if failed then Char.ofNat 0 else s.headD (Char.ofNat 0)
        let s1 := if failed then s else s.tail
        let negStep :=
          match chunkRest with
          | d :: t => if d == '^' then (true, t) else (false, chunkRest)
          | [] => (false, chunkRest)
        match rangeLoopF (negStep.2.length + 1) r negStep.2 false 0 with
        | none => .bad
        | some (m, ch2) =>
          matchChunkF fuel ch2 s1 (if m == negStep.1 then true else failed)
      else if c == '?' then
        let failed1 := if !failed && s.headD (Char.ofNat 0) == '/' then true else failed
        let s1 := if failed then s else s.tail
        matchChunkF fuel chunkRest s1 failed1
      else if c == '\\' then
        match chunkRest with
        | [] => .bad
        | d :: chunkRest2 =>
          let failed1 := if !failed && !(s.headD (Char.ofNat 0) == d) then true else failed
          let s1 := if failed then s else s.tail
          matchChunkF fuel chunkRest2 s1 failed1
      else
        let failed1 := if !failed && !(s.headD (Char.ofNat 0) == c) then true else failed
        let s1 := if failed then s else s.tail
        matchChunkF fuel chunkRest s1 failed1

/-- Go `matchChunk`. -/
def matchChunk (chunk s : List Char) : MRes := matchChunkF (chunk.length + 1) chunk s false

/-- The scan loop of Go `scanChunk` after leading stars are stripped:
collect chunk characters up to an unbracketed star. -/
def scanChunkLoop : List Char → Bool → List Char × List Char
  | [], _ => ([], [])
  | c :: rest, inrange =>
    if c == '\\' then
      match rest with
      | [] => (['\\'], [])
      | d :: rest2 =>
        let (ch, rm) := scanChunkLoop rest2 inrange
        ('\\' :: d :: ch, rm)
    else if c == '[' then
      let (ch, rm) := scanChunkLoop rest true
      ('[' :: ch, rm)
    else if c == ']' then
      let (ch, rm) := scanChunkLoop rest false
      (']' :: ch, rm)
    else if c == '*' then
      if inrange then
        let (ch, rm) := scanChunkLoop rest true
        ('*' :: ch, rm)
      else ([], c :: rest)
    else
      let (ch, rm) := scanChunkLoop rest inrange
      (c :: ch, rm)

/-- The star-stripping prefix loop of Go `scanChunk`. -/
def stripStars : List Char → Bool × List Char
  | '*' :: rest => (true, (stripStars rest).2)
  | p => (false, p)

/-- Go `scanChunk`: split a pattern into a leading-star flag, the next
chunk, and the remaining pattern. -/
def scanChunk (pattern : List Char) : Bool × List Char × List Char :=
  let s1 := stripStars pattern
  let s2 := scanChunkLoop s1.2 false
  (s1.1, s2.1, s2.2)

/-- The star-skip loop of Go `Match`: try to match `chunk` at every later
position of `name`, not crossing a path separator.  `none` is a bad
pattern; `some none` means the loop exhausted `name`; `some (some t)` means
the outer loop continues with remainder `t`. -/
def starLoopF (chunk pat : List Char) : List Char → Option (Option (List Char))
  | [] => some none
  | c :: s1 =>
    if c == '/' then some none
    else
      match matchChunk chunk s1 with
      | .ok t => if pat.isEmpty && !t.isEmpty then starLoopF chunk pat s1 else some (some t)
      | .fail => starLoopF chunk pat s1
      | .bad => none

/-- The final syntactic-validity loop of Go `Match`: before returning a
no-error non-match, check the rest of the pattern against the empty name
for bad syntax.  Fuel bounds the recursion; `pattern.length + 1`
suffices. -/
def validateF : Nat → List Char → Bool
  | _, [] => true
  | 0, _ => false
  | fuel + 1, pattern =>
    let sc := scanChunk pattern
    match matchChunk sc.2.1 [] with
    | .bad => false
    | _ => validateF fuel sc.2.2

/-- Go `filepath.Match` as the pair (matched, err-is-non-nil).  Fuel bounds
the outer loop; `pattern.length + 1` suffices since every iteration
consumes at least one pattern character. -/
def goMatchF : Nat → List Char → List Char → Bool × Bool
  | 0, _, _ => (false, true)
  | fuel + 1, pattern, name =>
    match pattern with
    | [] => (name.isEmpty, false)
    | p0 :: prest =>
      let sc := scanChunk (p0 :: prest)
      let star := sc.1
      let chunk := sc.2.1
      let rest := sc.2.2
      if star && chunk.isEmpty then (!name.contains '/', false)
      else
        let afterStar : Bool × Bool :=
          if star then
            match starLoopF chunk rest name with
            | none => (false, true)
            | some (some t) => goMatchF fuel rest t
            | some none =>
              if validateF (rest.length + 1) rest then (false, false) else (false, true)
          else if validateF (rest.length + 1) rest then (false, false) else (false, true)
        match matchChunk chunk name with
        | .ok t => if t.isEmpty || !rest.isEmpty then goMatchF fuel rest t else afterStar
        | .fail => afterStar
        | .bad => (false, true)

/-- Go `filepath.Match` on pattern and name. -/
def goMatch (pattern name : List Char) : Bool × Bool :=
  goMatchF (pattern.length + 1) pattern name

/-- The `matched` value the discovery code reads (it discards the error). -/
def goMatchB (pattern name : List Char) : Bool := (goMatch pattern name).1

/-- The include (or exclude) loop of `findPWADesktopFiles`: `matched` is set
per pattern and the loop breaks on the first match, so the final value is
true exactly when some pattern matches. -/
def anyPatternMatches (ps : List (List Char)) (name : List Char) : Bool :=
  ps.any (fun p => goMatchB p name)

/-- One iteration of the entry loop of `findPWADesktopFiles`: skip
directories, require an include-pattern match, then reject on any
exclude-pattern match. -/
def findStep (patterns excludePatterns : List (List Char))
    (acc : List (List Char)) (entry : List Char × Bool) : List (List Char) :=
  if entry.2 then acc
  else
    if anyPatternMatches patterns entry.1 then
      if anyPatternMatches excludePatterns entry.1 then acc else acc ++ [entry.1]
    else acc

/-- Go `findPWADesktopFiles` on an already-read directory listing: an entry
is a (name, isDir) pair; directories are skipped, then the include and
exclude pattern loops decide membership. -/
def findPWADesktopFiles (entries : List (List Char × Bool))
    (patterns excludePatterns : List (List Char)) : List (List Char) :=
  entries.foldl (findStep patterns excludePatterns) []

/-! ### Specification-side descriptions of the merge loops -/

/-- Spec §4.3 step 3, stated directly: the desired flags that get appended —
those not exactly equal to an existing flag, first occurrence only. -/
def specAppended : List (List Char) → List (List Char) → List (List Char)
  | [], _ => []
  | f :: rest, present =>
    if f ∈ present then specAppended rest present
    else f :: specAppended rest (present ++ [f])

theorem classifyArgs_fold (args : List (List Char)) (fs os : List (List Char)) :
    args.foldl
      (fun acc arg =>
        if startsDash arg then (acc.1 ++ [arg], acc.2) else (acc.1, acc.2 ++ [arg]))
      (fs, os)
      = (fs ++ args.filter (fun a => startsDash a),
         os ++ args.filter (fun a => !startsDash a)) := by
  induction args generalizing fs os with
  | nil => simp
  | cons a rest ih =>
    by_cases h : startsDash a
    · simp [List.foldl_cons, h, ih]
    · simp [List.foldl_cons, h, ih]

theorem classifyArgs_eq (args : List (List Char)) :
    classifyArgs args =
      (args.filter (fun a => startsDash a), args.filter (fun a => !startsDash a)) := by
  unfold classifyArgs
  simpa using classifyArgs_fold args [] []

theorem addFlagsLoop_mono {x : List Char} :
    ∀ (flags finalFlags seen : List (List Char)),
      x ∈ finalFlags → x ∈ addFlagsLoop flags finalFlags seen := by
  intro flags
  induction flags with
  | nil => intro finalFlags seen h; simpa [addFlagsLoop] using h
  | cons f rest ih =>
    intro finalFlags seen h
    by_cases hf : f ∈ seen
    · simpa [addFlagsLoop, hf] using ih finalFlags seen h
    · simp only [addFlagsLoop, if_neg hf]
      exact ih (finalFlags ++ [f]) (seen ++ [f]) (by simp [h])

theorem addFlagsLoop_mem {f : List Char} :
    ∀ (flags seen : List (List Char)), f ∈ flags → f ∈ addFlagsLoop flags seen seen := by
  intro flags
  induction flags with
  | nil => intro seen h; simp at h
  | cons g rest ih =>
    intro seen h
    rcases List.mem_cons.mp h with hfg | hmem
    · subst hfg
      by_cases hg : f ∈ seen
      · simpa [addFlagsLoop, hg] using addFlagsLoop_mono rest seen seen hg
      · simp only [addFlagsLoop, if_neg hg]
        exact addFlagsLoop_mono rest (seen ++ [f]) (seen ++ [f]) (by simp)
    · by_cases hg : g ∈ seen
      · simpa [addFlagsLoop, hg] using ih seen hmem
      · simp only [addFlagsLoop, if_neg hg]
        exact ih (seen ++ [g]) hmem

theorem addFlagsLoop_skip :
    ∀ (flags finalFlags seen : List (List Char)),
      (∀ f ∈ flags, f ∈ seen) → addFlagsLoop flags finalFlags seen = finalFlags := by
  intro flags
  induction flags with
  | nil => intro finalFlags seen _; rfl
  | cons g rest ih =>
    intro finalFlags seen h
    have hg : g ∈ seen := h g (by simp)
    simp only [addFlagsLoop, if_pos hg]
    exact ih finalFlags seen (fun f hf => h f (by simp [hf]))

theorem addFlagsLoop_eq_specAppended :
    ∀ (flags finalFlags seen : List (List Char)),
      addFlagsLoop flags finalFlags seen = finalFlags ++ specAppended flags seen := by
  intro flags
  induction flags with
  | nil => intro finalFlags seen; simp [addFlagsLoop, specAppended]
  | cons g rest ih =>
    intro finalFlags seen
    by_cases hg : g ∈ seen
    · simp [addFlagsLoop, specAppended, hg, ih]
    · simp [addFlagsLoop, specAppended, hg, ih, List.append_assoc]

theorem specAppended_subset {f : List Char} :
    ∀ (flags present : List (List Char)), f ∈ specAppended flags present → f ∈ flags := by
  intro flags
  induction flags with
  | nil => intro present h; simp [specAppended] at h
  | cons g rest ih =>
    intro present h
    by_cases hg : g ∈ present
    · simp only [specAppended, if_pos hg] at h
      exact List.mem_cons_of_mem _ (ih present h)
    · simp only [specAppended, if_neg hg, List.mem_cons] at h
      rcases h with h | h
      · simp [h]
      · exact List.mem_cons_of_mem _ (ih (present ++ [g]) h)

theorem addFlagsLoop_count (f : List Char) :
    ∀ (flags seen : List (List Char)),
      List.count f (addFlagsLoop flags seen seen) =
        List.count f seen + (if f ∈ flags ∧ f ∉ seen then 1 else 0) := by
  intro flags
  induction flags with
  | nil => intro seen; simp [addFlagsLoop]
  | cons g rest ih =>
    intro seen
    by_cases hg : g ∈ seen
    · rw [addFlagsLoop, if_pos hg, ih seen]
      congr 1
      by_cases hfg : f = g
      · subst hfg; simp [hg]
      · simp [hfg, List.mem_cons]
    · rw [addFlagsLoop, if_neg hg, ih (seen ++ [g])]
      by_cases hfg : f = g
      · subst hfg
        simp [List.count_append, hg, List.count_singleton]
      · have h1 : List.count f (seen ++ [g]) = List.count f seen := by
          simp [List.count_append, List.count_singleton, hfg]
        rw [h1]
        congr 1
        simp [List.mem_append, hfg, List.mem_cons]

/-! ### Parser lemmas -/

theorem utf8Size_space : Char.utf8Size ' ' = 1 := rfl

theorem utf8Size_dq : Char.utf8Size '"' = 1 := rfl

theorem parseLoop_no_quote :
    ∀ (l : List Char) (total pos : Nat) (args : List (List Char)) (cur : List Char)
      (qc : Char),
      (∀ c ∈ l, c ≠ dq ∧ c ≠ sq) →
      (parseLoop total l pos args cur false qc).2.2.1 = false := by
  intro l
  induction l with
  | nil => intro total pos args cur qc _; rfl
  | cons c rest ih =>
    intro total pos args cur qc h
    have hc1 : c ≠ dq := (h c (by simp)).1
    have hc2 : c ≠ sq := (h c (by simp)).2
    have hrest : ∀ x ∈ rest, x ≠ dq ∧ x ≠ sq := fun x hx => h x (by simp [hx])
    simp only [parseLoop]
    split_ifs <;>
      first
        | exact ih total _ _ _ _ hrest
        | simp_all

theorem parse_none_has_quote (s : List Char) (h : parseCommandLine s = none) :
    ∃ c ∈ s, c = dq ∨ c = sq := by
  by_contra hno
  push_neg at hno
  have hfalse := parseLoop_no_quote s (utf8Length s) 0 [] [] (Char.ofNat 0)
    (fun c hc => ⟨(hno c hc).1, (hno c hc).2⟩)
  simp [parseCommandLine, hfalse] at h

theorem fieldsAux_cur_ne_nil :
    ∀ (l cur : List Char), cur ≠ [] → fieldsAux cur l ≠ [] := by
  intro l
  induction l with
  | nil =>
    intro cur h
    simp [fieldsAux, h]
  | cons c rest ih =>
    intro cur h
    by_cases hc : goIsSpace c
    · simp [fieldsAux, hc, h]
    · simpa [fieldsAux, hc] using ih (cur ++ [c]) (by simp)


theorem fields_ne_nil :
    ∀ (l : List Char), (∃ c ∈ l, goIsSpace c = false) → fields l ≠ [] := by
  intro l
  induction l with
  | nil =>
    rintro ⟨c, hc, _⟩
    simp at hc
  | cons c rest ih =>
    rintro ⟨x, hx, hxs⟩
    by_cases hc : goIsSpace c
    · have hxr : x ∈ rest := by
        rcases List.mem_cons.mp hx with h | h
        · subst h; rw [hc] at hxs; cases hxs
        · exact h
      have hr := ih ⟨x, hxr, hxs⟩
      simpa [fields, fieldsAux, hc] using hr
    · have : fieldsAux ([] ++ [c]) rest ≠ [] := fieldsAux_cur_ne_nil rest ([] ++ [c]) (by simp)
      simpa [fields, fieldsAux, hc] using this

/-! ### C5: unterminated quote and the whitespace-split fallback -/

/-- C5: when the tokenizer fails (input ends inside a quoted region), the
merger does not fail: it uses the whitespace-only split of the trimmed
command, the result is nonempty, the first token of the fallback split
stays first, and every desired flag still ends up in the merged token
list. -/
theorem updateExecCommand_fallback
    (cmd : List Char) (flags : List (List Char)) (hne : flags ≠ [])
    (hfail : parseCommandLine (trimSpace cmd) = none) :
    goParts (trimSpace cmd) = fields (trimSpace cmd) ∧
    updateExecParts cmd flags ≠ [] ∧
    (updateExecParts cmd flags).head? = (fields (trimSpace cmd)).head? ∧
    ∀ f ∈ flags, f ∈ updateExecParts cmd flags := by
  have hgp : goParts (trimSpace cmd) = fields (trimSpace cmd) := by
    simp [goParts, hfail]
  have hquote := parse_none_has_quote _ hfail
  have hfne : fields (trimSpace cmd) ≠ [] := by
    obtain ⟨c, hc, hq⟩ := hquote
    refine fields_ne_nil _ ⟨c, hc, ?_⟩
    rcases hq with h | h <;> subst h <;> rfl
  obtain ⟨e, args, heq⟩ : ∃ e args, fields (trimSpace cmd) = e :: args := by
    cases hh : fields (trimSpace cmd) with
    | nil => exact absurd hh hfne
    | cons e args => exact ⟨e, args, rfl⟩
  have hparts : updateExecParts cmd flags =
      e :: (addFlagsLoop flags (args.filter (fun a => startsDash a))
          (args.filter (fun a => startsDash a)) ++
        args.filter (fun a => !startsDash a)) := by
    simp only [updateExecParts, hgp, heq, classifyArgs_eq]
  refine ⟨hgp, by simp [hparts], by simp [hparts, heq], ?_⟩
  intro f hf
  rw [hparts]
  have hmem := addFlagsLoop_mem (f := f) flags (args.filter (fun a => startsDash a)) hf
  simp [hmem]

/-- C5 witness: the spec's unterminated-quote scenario. -/
theorem updateExecCommand_fallback_witness :
    parseCommandLine (trimSpace (("/usr/bin/app \"foo").data)) = none ∧
    (("--ozone-platform=wayland").data) ∈
      updateExecParts (("/usr/bin/app \"foo").data) [("--ozone-platform=wayland").data] := by
  refine ⟨by decide, ?_⟩
  exact (updateExecCommand_fallback (("/usr/bin/app \"foo").data)
    [("--ozone-platform=wayland").data] (by decide) (by decide)).2.2.2 _ (by simp)

/-! ### C9: whitespace-only commands -/

/-- C9 (counterexample): with the empty desired flag list the command is
returned unchanged, so a whitespace-only command does NOT become the empty
string. -/
theorem c9_counterexample :
    updateExecCommand [' '] [] = [' '] ∧ ([' '] : List Char) ≠ [] := by
  exact ⟨rfl, by decide⟩

theorem trimSpace_all_space (l : List Char) (h : ∀ c ∈ l, goIsSpace c = true) :
    trimSpace l = [] := by
  unfold trimSpace
  have h1 : l.dropWhile goIsSpace = [] := by
    rw [List.dropWhile_eq_nil_iff]
    exact fun c hc => h c hc
  rw [h1]
  rfl

theorem splitNl_no_newline :
    ∀ (l cur rest : List Char), '\n' ∉ l →
      splitNl cur (l ++ '\n' :: rest) = (cur ++ l) :: splitNl [] rest := by
  intro l
  induction l with
  | nil => intro cur rest _; simp [splitNl]
  | cons c t ih =>
    intro cur rest h
    have hc : (c == '\n') = false := by
      simp only [beq_eq_false_iff_ne, ne_eq]
      intro hcc
      exact h (by simp [hcc])
    have ht : '\n' ∉ t := fun hm => h (by simp [hm])
    show splitNl cur (c :: (t ++ '\n' :: rest)) = (cur ++ c :: t) :: splitNl [] rest
    simp only [splitNl, hc, Bool.false_eq_true, if_false]
    rw [ih (cur ++ [c]) rest ht]
    simp

theorem scanLines_single_line (line : List Char) (h : '\n' ∉ line)
    (hcr : line.getLast? ≠ some '\r') :
    scanLines (line ++ ['\n']) = [line] := by
  unfold scanLines
  have hsplit : splitNl [] (line ++ '\n' :: []) = ([] ++ line) :: splitNl [] [] :=
    splitNl_no_newline line [] [] h
  simp only [splitNl] at hsplit
  rw [show line ++ ['\n'] = line ++ '\n' :: [] from rfl, hsplit]
  have hdc : dropCR line = line := by
    unfold dropCR
    rw [if_neg]
    simp only [beq_iff_eq]
    exact hcr
  simp [hdc]

/-- C9 (amended): for every NONEMPTY desired flag list, merging a command
that is empty or consists only of whitespace yields the empty string (the
flags are not added), and the rewritten line becomes exactly `Exec=`. -/
theorem updateExecCommand_whitespace
    (cmd : List Char) (flags : List (List Char)) (hne : flags ≠ [])
    (hws : ∀ c ∈ cmd, goIsSpace c = true ∧ c ≠ '\n' ∧ c ≠ '\r') :
    updateExecCommand cmd flags = [] ∧
    modifyDesktopContent ((("Exec=").data) ++ cmd ++ ['\n']) flags =
      ((("Exec=\n").data), 1) := by
  have htrim : trimSpace cmd = [] := trimSpace_all_space cmd (fun c hc => (hws c hc).1)
  have hlen : (flags.length == 0) = false := by simp [List.length_eq_zero, hne]
  have h0 : updateExecParts cmd flags = [] := by
    unfold updateExecParts
    rw [htrim]
    rfl
  have hup : updateExecCommand cmd flags = [] := by
    simp only [updateExecCommand, hlen, Bool.false_eq_true, if_false, h0, List.map_nil]
    rfl
  refine ⟨hup, ?_⟩
  have hnl : '\n' ∉ (("Exec=").data) ++ cmd := by
    intro hm
    rcases List.mem_append.mp hm with hm | hm
    · simp at hm
    · exact (hws _ hm).2.1 rfl
  have hlast : ((("Exec=").data) ++ cmd).getLast? ≠ some '\r' := by
    cases hcmd : cmd with
    | nil => subst hcmd; decide
    | cons a t =>
      rw [List.getLast?_append_cons]
      intro heq
      have hmemo : '\r' ∈ (a :: t).getLast? := heq
      obtain ⟨hx, hlx⟩ := List.mem_getLast?_eq_getLast hmemo
      have hmem : '\r' ∈ cmd := by
        rw [hcmd, hlx]
        exact List.getLast_mem hx
      exact (hws _ hmem).2.2 rfl
  have hassoc : (("Exec=").data) ++ cmd ++ ['\n'] = ((("Exec=").data) ++ cmd) ++ ['\n'] := by
    simp [List.append_assoc]
  rw [hassoc]
  unfold modifyDesktopContent
  rw [scanLines_single_line _ hnl hlast]
  have hexec : isExecLine ((("Exec=").data) ++ cmd) = true := by
    unfold isExecLine
    rw [List.isPrefixOf_iff_prefix]
    exact List.prefix_append _ _
  have hdrop : ((("Exec=").data) ++ cmd).drop 5 = cmd := by
    have := List.drop_left (("Exec=").data) cmd
    simpa using this
  simp only [List.foldl_cons, List.foldl_nil, modifyStep, hexec, if_true, hdrop, hup,
    List.append_nil, List.nil_append]
  rfl

/-- C9 witness: two spaces with one desired flag. -/
theorem updateExecCommand_whitespace_witness :
    updateExecCommand [' ', ' '] [("--x").data] = [] ∧
    modifyDesktopContent ((("Exec=").data) ++ [' ', ' '] ++ ['\n']) [("--x").data] =
      ((("Exec=\n").data), 1) :=
  updateExecCommand_whitespace [' ', ' '] [("--x").data] (by decide) (by decide)

/-- C2 (counterexample): the claim quantifies over every desired flag list,
but with the empty flag list `updateExecCommand` returns the command
unchanged, so the interleaved positional `%U` is NOT moved after the flag
`-c`: the output is `exe %U -c`, not the claimed `exe -c %U`. -/
theorem c2_counterexample :
    updateExecCommand (("exe %U -c").data) [] = ("exe %U -c").data ∧
    updateExecCommand (("exe %U -c").data) [] ≠ ("exe -c %U").data := by
  constructor
  · rfl
  · decide

/-- C2 (amended): for every command string whose token list is nonempty and
every NONEMPTY desired flag list, the merged token list is
[executable] + [existing flag tokens in original order, then the missing
desired flags in desired order] + [positional tokens in original order],
and the output string is these tokens re-quoted and joined by single
spaces. -/
theorem updateExecCommand_token_order
    (cmd : List Char) (flags : List (List Char)) (hne : flags ≠ [])
    (exec : List Char) (args : List (List Char))
    (hp : goParts (trimSpace cmd) = exec :: args) :
    updateExecParts cmd flags =
      exec :: ((args.filter (fun a => startsDash a) ++
          specAppended flags (args.filter (fun a => startsDash a))) ++
        args.filter (fun a => !startsDash a)) ∧
    updateExecCommand cmd flags =
      List.intercalate [' ']
        ((exec :: ((args.filter (fun a => startsDash a) ++
            specAppended flags (args.filter (fun a => startsDash a))) ++
          args.filter (fun a => !startsDash a))).map requote) := by
  have hlen : (flags.length == 0) = false := by
    simp [List.length_eq_zero, hne]
  have hparts : updateExecParts cmd flags =
      exec :: ((args.filter (fun a => startsDash a) ++
          specAppended flags (args.filter (fun a => startsDash a))) ++
        args.filter (fun a => !startsDash a)) := by
    simp only [updateExecParts, hp, classifyArgs_eq, addFlagsLoop_eq_specAppended]
  refine ⟨hparts, ?_⟩
  simp only [updateExecCommand, hlen, Bool.false_eq_true, if_false, hparts]

/-- C2 witness: the brave-browser scenario from the spec. -/
theorem updateExecCommand_token_order_witness :
    updateExecCommand (("/usr/bin/brave-browser %U").data)
        [("--ozone-platform=wayland").data] =
      ("/usr/bin/brave-browser --ozone-platform=wayland %U").data := by
  have h := (updateExecCommand_token_order (("/usr/bin/brave-browser %U").data)
      [("--ozone-platform=wayland").data] (by decide)
      (("/usr/bin/brave-browser").data) [("%U").data] (by decide)).2
  rw [h]
  decide

/-! ### C3: each desired flag appears exactly once after the merge -/

/-- C3 (counterexample): a flag already present twice in the existing
command stays present twice: merging `exe -x -x` with desired `[-x]` keeps
both copies. -/
theorem c3_counterexample :
    updateExecCommand (("exe -x -x").data) [("-x").data] = ("exe -x -x").data ∧
    List.count (("-x").data) (updateExecParts (("exe -x -x").data) [("-x").data]) = 2 := by
  constructor
  · rfl
  · decide

/-- C3 (amended): a desired flag that begins with a dash, differs from the
executable token, and occurs at most once among the existing argument
tokens occurs exactly once in the merged token list — even if it was
already present, and even if the desired list names it twice. -/
theorem updateExecCommand_flag_once
    (cmd : List Char) (flags : List (List Char)) (f : List Char)
    (hf : f ∈ flags) (hd : startsDash f = true)
    (exec : List Char) (args : List (List Char))
    (hp : goParts (trimSpace cmd) = exec :: args)
    (hexec : f ≠ exec) (hcount : List.count f args ≤ 1) :
    List.count f (updateExecParts cmd flags) = 1 := by
  simp only [updateExecParts, hp, classifyArgs_eq]
  have hE : List.count f (args.filter (fun a => startsDash a)) = List.count f args := by
    rw [List.count_filter]
    simp [hd]
  have hO : List.count f (args.filter (fun a => !startsDash a)) = 0 := by
    rw [List.count_eq_zero]
    intro hmem
    have := List.of_mem_filter hmem
    simp [hd] at this
  have hadd := addFlagsLoop_count f flags (args.filter (fun a => startsDash a))
  have hcons : List.count f
      (exec :: (addFlagsLoop flags (args.filter (fun a => startsDash a))
          (args.filter (fun a => startsDash a)) ++
        args.filter (fun a => !startsDash a))) =
      List.count f (addFlagsLoop flags (args.filter (fun a => startsDash a))
          (args.filter (fun a => startsDash a))) := by
    rw [List.count_cons, List.count_append, hO]
    simp [hexec, Ne.symm hexec]
  rw [hcons, hadd, hE]
  rcases Nat.le_one_iff_eq_zero_or_eq_one.mp hcount with h0 | h1
  · have hnm : f ∉ args.filter (fun a => startsDash a) := by
      intro hmem
      have : 0 < List.count f (args.filter (fun a => startsDash a)) :=
        List.count_pos_iff_mem.mpr hmem
      omega
    rw [h0]
    simp [hf, hnm]
  · have hm : f ∈ args.filter (fun a => startsDash a) := by
      apply List.count_pos_iff_mem.mp
      omega
    rw [h1]
    simp [hm]

/-- C3 witness: the already-present Wayland flag, named twice in the
desired list, appears exactly once after the merge. -/
theorem updateExecCommand_flag_once_witness :
    List.count (("--ozone-platform=wayland").data)
      (updateExecParts (("/usr/bin/brave-browser --ozone-platform=wayland %U").data)
        [("--ozone-platform=wayland").data, ("--ozone-platform=wayland").data]) = 1 :=
  updateExecCommand_flag_once
    (("/usr/bin/brave-browser --ozone-platform=wayland %U").data)
    [("--ozone-platform=wayland").data, ("--ozone-platform=wayland").data]
    (("--ozone-platform=wayland").data) (by decide) (by decide)
    (("/usr/bin/brave-browser").data) [("--ozone-platform=wayland").data, ("%U").data]
    (by decide) (by decide) (by decide)

/-! ### C4: the tokenizer's end-of-input flush -/

/-- C4: the source checks `i == len(command)-1` with `i` a byte index, so a
trailing token whose final rune is multi-byte is silently dropped on
success: `aé` tokenizes to no tokens at all, and `ab é` loses its final
token, while the all-ASCII `ab e` keeps both. -/
theorem parseCommandLine_drops_trailing_multibyte :
    parseCommandLine (("aé").data) = some [] ∧
    parseCommandLine (("ab é").data) = some [("ab").data] ∧
    parseCommandLine (("ab e").data) = some [("ab").data, ("e").data] := by
  refine ⟨by decide, by decide, by decide⟩

/-! ### C6: no-Exec inputs -/

/-- C6 (counterexample): every emitted line gets a trailing newline, so an
input without a final newline is not returned byte-identical even though it
contains no `Exec=` line. -/
theorem c6_counterexample :
    modifyDesktopContent (("a").data) [("--x").data] = (("a\n").data, 0) ∧
    ("a\n").data ≠ ("a").data := by
  constructor
  · rfl
  · decide

/-- A text made of newline-terminated lines. -/
def joinLines (lines : List (List Char)) : List Char :=
  (lines.map (fun l => l ++ ['\n'])).join

theorem splitNl_joinLines :
    ∀ (L : List (List Char)), (∀ l ∈ L, '\n' ∉ l) →
      splitNl [] (joinLines L) = L ++ [[]] := by
  intro L
  induction L with
  | nil => intro _; rfl
  | cons l rest ih =>
    intro h
    have hjoin : joinLines (l :: rest) = l ++ '\n' :: joinLines rest := by
      simp [joinLines, List.append_assoc]
    rw [hjoin, splitNl_no_newline l [] (joinLines rest) (h l (by simp))]
    simp [ih (fun x hx => h x (by simp [hx]))]

theorem scanLines_joinLines (L : List (List Char))
    (h : ∀ l ∈ L, '\n' ∉ l ∧ l.getLast? ≠ some '\r') :
    scanLines (joinLines L) = L := by
  unfold scanLines
  rw [splitNl_joinLines L (fun l hl => (h l hl).1)]
  have hlast : (L ++ [[]]).getLast? = some ([] : List Char) := by
    rw [List.getLast?_append_cons]
    rfl
  have hdl : (L ++ [([] : List Char)]).dropLast = L := by
    simpa using List.dropLast_concat (l := L) (b := ([] : List Char))
  have hstep :
      (if ((L ++ [[]]).getLast? == some ([] : List Char)) = true
        then (L ++ [[]]).dropLast else (L ++ [[]])) = L := by
    rw [hlast]
    exact hdl
  show ((if ((L ++ [[]]).getLast? == some ([] : List Char)) = true
      then (L ++ [[]]).dropLast else (L ++ [[]])).map dropCR) = L
  rw [hstep]
  have hmap : ∀ l ∈ L, dropCR l = l := by
    intro l hl
    unfold dropCR
    rw [if_neg]
    simp only [beq_iff_eq]
    exact (h l hl).2
  calc L.map dropCR = L.map id := List.map_congr_left hmap
    _ = L := List.map_id L

theorem modifyFold_no_exec (flags : List (List Char)) :
    ∀ (lines : List (List Char)) (acc : List Char × Nat),
      (∀ l ∈ lines, isExecLine l = false) →
      lines.foldl (modifyStep flags) acc = (acc.1 ++ joinLines lines, acc.2) := by
  intro lines
  induction lines with
  | nil => intro acc _; simp [joinLines]
  | cons l rest ih =>
    intro acc h
    have hl : isExecLine l = false := h l (by simp)
    have hstep : modifyStep flags acc l = (acc.1 ++ l ++ ['\n'], acc.2) := by
      simp [modifyStep, hl]
    rw [List.foldl_cons, hstep, ih _ (fun x hx => h x (by simp [hx]))]
    simp [joinLines, List.append_assoc]

/-- C6 (amended): if the file text consists of newline-terminated lines,
none ending in a carriage return, and no line begins with `Exec=`, then the
rewriter's output is byte-identical to the input and the count is 0. -/
theorem modifyDesktopContent_no_exec (L : List (List Char)) (flags : List (List Char))
    (h : ∀ l ∈ L, '\n' ∉ l ∧ l.getLast? ≠ some '\r' ∧ isExecLine l = false) :
    modifyDesktopContent (joinLines L) flags = (joinLines L, 0) := by
  unfold modifyDesktopContent
  rw [scanLines_joinLines L (fun l hl => ⟨(h l hl).1, (h l hl).2.1⟩)]
  rw [modifyFold_no_exec flags L ([], 0) (fun l hl => (h l hl).2.2)]
  simp

/-- C6 witness: a one-line desktop entry without an Exec line. -/
theorem modifyDesktopContent_no_exec_witness :
    modifyDesktopContent (joinLines [("Name=x").data]) [("--x").data] =
      (joinLines [("Name=x").data], 0) :=
  modifyDesktopContent_no_exec [("Name=x").data] [("--x").data] (by decide)

/-! ### C7: the reported count -/

theorem modifyFold_count (flags : List (List Char)) :
    ∀ (lines : List (List Char)) (acc : List Char × Nat),
      (lines.foldl (modifyStep flags) acc).2 =
        acc.2 + (lines.filter (fun l => isExecLine l)).length := by
  intro lines
  induction lines with
  | nil => intro acc; simp
  | cons l rest ih =>
    intro acc
    by_cases h : isExecLine l
    · simp [modifyStep, h, ih, Nat.add_comm, Nat.add_assoc, Nat.add_left_comm]
    · simp [modifyStep, h, ih]

/-- C7 (counterexample): a matching line that the merge leaves unchanged is
still counted: on `Exec=a --x` with desired `[--x]` the output equals the
input (zero lines changed) yet the reported count is 1. -/
theorem c7_counterexample :
    modifyDesktopContent (("Exec=a --x\n").data) [("--x").data] =
      (("Exec=a --x\n").data, 1) := by
  rfl

/-- C7 (amended): the reported count equals the number of lines matching
`^Exec=`, whether or not the merge changed them. -/
theorem modifyDesktopContent_count (content : List Char) (flags : List (List Char)) :
    (modifyDesktopContent content flags).2 =
      ((scanLines content).filter (fun l => isExecLine l)).length := by
  unfold modifyDesktopContent
  rw [modifyFold_count]
  simp

/-! ### C8: discovery membership -/

theorem findFold_eq (patterns excl : List (List Char)) :
    ∀ (entries : List (List Char × Bool)) (acc : List (List Char)),
      entries.foldl (findStep patterns excl) acc =
        acc ++ (entries.filter (fun en =>
            !en.2 && anyPatternMatches patterns en.1 && !anyPatternMatches excl en.1)).map
          (fun en => en.1) := by
  intro entries
  induction entries with
  | nil => intro acc; simp
  | cons en rest ih =>
    intro acc
    by_cases hd : en.2
    · simp [findStep, hd, ih]
    · by_cases hi : anyPatternMatches patterns en.1
      · by_cases he : anyPatternMatches excl en.1
        · simp [findStep, hd, hi, he, ih]
        · simp [findStep, hd, hi, he, ih]
      · simp [findStep, hd, hi, ih]

/-- C8: a name is in the discovered set iff a (name, not-directory) entry is
listed, some include pattern matches it and no exclude pattern matches it;
and on the spec's concrete patterns, `brave-youtube.desktop` is kept while
`brave-browser-beta.desktop` is excluded. -/
theorem findPWADesktopFiles_membership :
    (∀ (entries : List (List Char × Bool)) (patterns excl : List (List Char))
        (name : List Char),
      name ∈ findPWADesktopFiles entries patterns excl ↔
        ((name, false) ∈ entries ∧ anyPatternMatches patterns name = true ∧
          anyPatternMatches excl name = false)) ∧
    findPWADesktopFiles
        [(("brave-youtube.desktop").data, false), (("brave-browser-beta.desktop").data, false)]
        [("brave-*.desktop").data] [("brave-browser*.desktop").data] =
      [("brave-youtube.desktop").data] := by
  constructor
  · intro entries patterns excl name
    unfold findPWADesktopFiles
    rw [findFold_eq]
    simp only [List.nil_append, List.mem_map, List.mem_filter]
    constructor
    · rintro ⟨⟨a, b⟩, ⟨hmem, hpred⟩, hname⟩
      simp only at hname
      subst hname
      simp only [Bool.and_eq_true, Bool.not_eq_true'] at hpred
      obtain ⟨⟨hdir, hinc⟩, hexc⟩ := hpred
      subst hdir
      exact ⟨hmem, hinc, hexc⟩
    · rintro ⟨hmem, hinc, hexc⟩
      refine ⟨(name, false), ⟨hmem, ?_⟩, rfl⟩
      simp [hinc, hexc]
  · decide

/-! ### C10: malformed glob patterns -/

theorem goMatchF_err_no_match :
    ∀ (fuel : Nat) (pattern name : List Char),
      (goMatchF fuel pattern name).2 = true → (goMatchF fuel pattern name).1 = false := by
  intro fuel
  induction fuel with
  | zero => intro p n _; rfl
  | succ fuel ih =>
    intro p n
    cases p with
    | nil => intro h; simp [goMatchF] at h
    | cons p0 prest =>
      simp only [goMatchF]
      by_cases hstar : (scanChunk (p0 :: prest)).1 && (scanChunk (p0 :: prest)).2.1.isEmpty
      · simp [hstar]
      · simp only [hstar, Bool.false_eq_true, if_false]
        cases hm : matchChunk (scanChunk (p0 :: prest)).2.1 n with
        | ok t =>
          simp only
          by_cases hcont : t.isEmpty || !(scanChunk (p0 :: prest)).2.2.isEmpty
          · simp only [hcont, if_true]
            exact ih _ _
          · simp only [hcont, Bool.false_eq_true, if_false]
            by_cases hst : (scanChunk (p0 :: prest)).1
            · simp only [hst, if_true]
              cases hs : starLoopF (scanChunk (p0 :: prest)).2.1 (scanChunk (p0 :: prest)).2.2 n with
              | none => intro _; rfl
              | some o =>
                cases o with
                | none =>
                  by_cases hv : validateF ((scanChunk (p0 :: prest)).2.2.length + 1)
                      (scanChunk (p0 :: prest)).2.2
                  · simp [hv]
                  · simp [hv]
                | some t2 => simp only; exact ih _ _
            · simp only [hst, Bool.false_eq_true, if_false]
              by_cases hv : validateF ((scanChunk (p0 :: prest)).2.2.length + 1)
                  (scanChunk (p0 :: prest)).2.2
              · simp [hv]
              · simp [hv]
        | fail =>
          simp only
          by_cases hst : (scanChunk (p0 :: prest)).1
          · simp only [hst, if_true]
            cases hs : starLoopF (scanChunk (p0 :: prest)).2.1 (scanChunk (p0 :: prest)).2.2 n with
            | none => intro _; rfl
            | some o =>
              cases o with
              | none =>
                by_cases hv : validateF ((scanChunk (p0 :: prest)).2.2.length + 1)
                    (scanChunk (p0 :: prest)).2.2
                · simp [hv]
                · simp [hv]
              | some t2 => simp only; exact ih _ _
          · simp only [hst, Bool.false_eq_true, if_false]
            by_cases hv : validateF ((scanChunk (p0 :: prest)).2.2.length + 1)
                (scanChunk (p0 :: prest)).2.2
            · simp [hv]
            · simp [hv]
        | bad => intro _; rfl

theorem goMatchB_lbracket (name : List Char) : goMatchB [('[')] name = false := by
  cases name <;> rfl

theorem goMatch_lbracket_err (name : List Char) : (goMatch [('[')] name).2 = true := by
  cases name <;> rfl

/-- C10: a malformed glob pattern never causes discovery to fail: when the
matcher reports an error it reports a non-match, the discovery loop reads
only the match bit, and so a malformed include pattern (such as `[`) admits
nothing while a malformed exclude pattern excludes nothing. -/
theorem findPWADesktopFiles_malformed :
    (∀ (pattern name : List Char),
      (goMatch pattern name).2 = true → (goMatch pattern name).1 = false) ∧
    (∀ (name : List Char), goMatchB (("[").data) name = false) ∧
    (∀ (entries : List (List Char × Bool)) (excl : List (List Char)),
      findPWADesktopFiles entries [("[").data] excl = []) ∧
    (∀ (entries : List (List Char × Bool)) (incl : List (List Char)),
      findPWADesktopFiles entries incl [("[").data] =
        findPWADesktopFiles entries incl []) := by
  refine ⟨fun p n => goMatchF_err_no_match _ p n, goMatchB_lbracket, ?_, ?_⟩
  · intro entries excl
    unfold findPWADesktopFiles
    rw [findFold_eq]
    have hany : ∀ name, anyPatternMatches [("[").data] name = false := by
      intro name
      simp [anyPatternMatches, goMatchB_lbracket]
    have : (entries.filter (fun en =>
        !en.2 && anyPatternMatches [("[").data] en.1 && !anyPatternMatches excl en.1)) = [] := by
      rw [List.filter_eq_nil]
      intro en _
      simp [hany]
    rw [this]
    rfl
  · intro entries incl
    unfold findPWADesktopFiles
    rw [findFold_eq, findFold_eq]
    have hany : ∀ name, anyPatternMatches [("[").data] name = false := by
      intro name
      simp [anyPatternMatches, goMatchB_lbracket]
    have hsame : (fun (en : List Char × Bool) =>
        !en.2 && anyPatternMatches incl en.1 && !anyPatternMatches [("[").data] en.1) =
        (fun en => !en.2 && anyPatternMatches incl en.1 && !anyPatternMatches [] en.1) := by
      funext en
      simp [anyPatternMatches, goMatchB_lbracket]
    rw [hsame]

/-- C10 witness: the malformed pattern `[` on the name `x`: the matcher
errors, and the match bit read by discovery is false. -/
theorem findPWADesktopFiles_malformed_witness :
    (goMatch (("[").data) (("x").data)).2 = true ∧
    (goMatch (("[").data) (("x").data)).1 = false :=
  ⟨by decide, findPWADesktopFiles_malformed.1 (("[").data) (("x").data) (by decide)⟩

/-! ### C1: idempotence of the merge

Step lemmas for `parseLoop`, one per branch of the Go loop body. -/

theorem psSpaceNil (total : Nat) (rest : List Char) (pos : Nat)
    (args : List (List Char)) (qc : Char) :
    parseLoop total (' ' :: rest) pos args [] false qc =
      parseLoop total rest (pos + 1) args [] false qc := by
  simp [parseLoop, utf8Size_space, dq, sq]

theorem psSpaceFlush (total : Nat) (rest : List Char) (pos : Nat)
    (args : List (List Char)) (cur : List Char) (qc : Char) (hcur : cur ≠ []) :
    parseLoop total (' ' :: rest) pos args cur false qc =
      parseLoop total rest (pos + 1) (args ++ [cur]) [] false qc := by
  simp [parseLoop, utf8Size_space, dq, sq, List.length_pos, hcur]

theorem psPlain (total : Nat) (c : Char) (rest : List Char) (pos : Nat)
    (args : List (List Char)) (cur : List Char) (qc : Char)
    (h1 : c ≠ dq) (h2 : c ≠ sq) (h3 : c ≠ ' ') (hpos : pos ≠ total - 1) :
    parseLoop total (c :: rest) pos args cur false qc =
      parseLoop total rest (pos + c.utf8Size) args (cur ++ [c]) false qc := by
  simp [parseLoop, h1, h2, h3, hpos]

theorem psPlainLast (total : Nat) (c : Char) (rest : List Char) (pos : Nat)
    (args : List (List Char)) (cur : List Char) (qc : Char)
    (h1 : c ≠ dq) (h2 : c ≠ sq) (h3 : c ≠ ' ') (hpos : pos = total - 1) :
    parseLoop total (c :: rest) pos args cur false qc =
      parseLoop total rest (pos + c.utf8Size) (args ++ [cur ++ [c]]) (cur ++ [c]) false qc := by
  simp [parseLoop, h1, h2, h3, hpos]

theorem psOpenQ (total : Nat) (rest : List Char) (pos : Nat)
    (args : List (List Char)) (qc : Char) :
    parseLoop total (dq :: rest) pos args [] false qc =
      parseLoop total rest (pos + 1) args [] true dq := by
  simp [parseLoop, utf8Size_dq, dq, sq]

theorem psInQ (total : Nat) (c : Char) (rest : List Char) (pos : Nat)
    (args : List (List Char)) (cur : List Char)
    (hq : c ≠ dq) (hpos : pos ≠ total - 1) :
    parseLoop total (c :: rest) pos args cur true dq =
      parseLoop total rest (pos + c.utf8Size) args (cur ++ [c]) true dq := by
  simp [parseLoop, hq, hpos]

theorem psCloseQ (total : Nat) (rest : List Char) (pos : Nat)
    (args : List (List Char)) (cur : List Char) (hpos : pos ≠ total - 1) :
    parseLoop total (dq :: rest) pos args cur true dq =
      parseLoop total rest (pos + 1) args cur false dq := by
  simp [parseLoop, utf8Size_dq, dq, sq, hpos]

theorem psCloseQLast (total : Nat) (rest : List Char) (pos : Nat)
    (args : List (List Char)) (cur : List Char) (hpos : pos = total - 1) (hcur : cur ≠ []) :
    parseLoop total (dq :: rest) pos args cur true dq =
      parseLoop total rest (pos + 1) (args ++ [cur]) cur false dq := by
  simp [parseLoop, utf8Size_dq, dq, sq, hpos, List.length_pos, hcur]

/-- The space-split of a command with no quote characters, mirroring the
loop structure of `parseCommandLine` on such inputs: tokens are maximal
space-free runs, and the in-progress token is flushed at the last
character. -/
def specSplit : List Char → List Char → List (List Char)
  | _, [] => []
  | cur, c :: rest =>
    if c = ' ' then (if cur = [] then [] else [cur]) ++ specSplit [] rest
    else if rest = [] then [cur ++ [c]]
    else specSplit (cur ++ [c]) rest

theorem parseLoop_good :
    ∀ (l : List Char) (total pos : Nat) (args : List (List Char)) (cur : List Char)
      (qc : Char),
      (∀ c ∈ l, c.utf8Size = 1 ∧ c ≠ dq ∧ c ≠ sq) →
      pos + l.length = total →
      (parseLoop total l pos args cur false qc).1 = args ++ specSplit cur l ∧
      (parseLoop total l pos args cur false qc).2.2.1 = false := by
  intro l
  induction l with
  | nil =>
    intro total pos args cur qc _ _
    simp [parseLoop, specSplit]
  | cons c rest ih =>
    intro total pos args cur qc h htot
    obtain ⟨hsz, hq1, hq2⟩ := h c (by simp)
    have hrest : ∀ x ∈ rest, x.utf8Size = 1 ∧ x ≠ dq ∧ x ≠ sq :=
      fun x hx => h x (by simp [hx])
    have htot2 : (pos + 1) + rest.length = total := by
      simp only [List.length_cons] at htot
      omega
    by_cases hsp : c = ' '
    · subst hsp
      by_cases hcur : cur = []
      · subst hcur
        rw [psSpaceNil]
        have hres := ih total (pos + 1) args [] qc hrest htot2
        refine ⟨?_, hres.2⟩
        rw [hres.1]
        simp [specSplit]
      · rw [psSpaceFlush total rest pos args cur qc hcur]
        have hres := ih total (pos + 1) (args ++ [cur]) [] qc hrest htot2
        refine ⟨?_, hres.2⟩
        rw [hres.1]
        simp [specSplit, hcur]
    · cases rest with
      | nil =>
        have hpos : pos = total - 1 := by
          simp only [List.length_cons, List.length_nil] at htot
          omega
        rw [psPlainLast total c [] pos args cur qc hq1 hq2 hsp hpos]
        simp [parseLoop, specSplit, hsp]
      | cons d rest2 =>
        have hpos : pos ≠ total - 1 := by
          simp only [List.length_cons] at htot
          omega
        rw [psPlain total c (d :: rest2) pos args cur qc hq1 hq2 hsp hpos]
        have hres := ih total (pos + c.utf8Size) args (cur ++ [c]) qc hrest
          (by rw [hsz]; exact htot2)
        refine ⟨?_, hres.2⟩
        rw [hres.1]
        simp [specSplit, hsp]

theorem utf8Length_all_one :
    ∀ (l : List Char), (∀ c ∈ l, c.utf8Size = 1) → utf8Length l = l.length := by
  intro l
  induction l with
  | nil => intro _; rfl
  | cons c rest ih =>
    intro h
    have hc : c.utf8Size = 1 := h c (by simp)
    have hr := ih (fun x hx => h x (by simp [hx]))
    simp [utf8Length] at hr ⊢
    omega

theorem parseCommandLine_good (s : List Char)
    (h : ∀ c ∈ s, c.utf8Size = 1 ∧ c ≠ dq ∧ c ≠ sq) :
    parseCommandLine s = some (specSplit [] s) := by
  have hlen : utf8Length s = s.length := utf8Length_all_one s (fun c hc => (h c hc).1)
  have hres := parseLoop_good s (utf8Length s) 0 [] [] (Char.ofNat 0) h (by omega)
  show (if (parseLoop (utf8Length s) s 0 [] [] false (Char.ofNat 0)).2.2.1 then none
      else some (parseLoop (utf8Length s) s 0 [] [] false (Char.ofNat 0)).1) =
    some (specSplit [] s)
  rw [hres.2, hres.1]
  simp

theorem specSplit_tokens :
    ∀ (l cur : List Char), ' ' ∉ cur →
      ∀ t ∈ specSplit cur l, t ≠ [] ∧ ' ' ∉ t ∧ ∀ c ∈ t, c ∈ cur ∨ c ∈ l := by
  intro l
  induction l with
  | nil => intro cur _ t ht; simp [specSplit] at ht
  | cons c rest ih =>
    intro cur hcur t ht
    by_cases hsp : c = ' '
    · subst hsp
      rw [specSplit, if_pos rfl] at ht
      rcases List.mem_append.mp ht with hin | hin
      · by_cases hce : cur = []
        · simp [hce] at hin
        · rw [if_neg hce] at hin
          have : t = cur := by simpa using hin
          subst this
          exact ⟨hce, hcur, fun x hx => Or.inl hx⟩
      · obtain ⟨hne, hns, hmem⟩ := ih [] (by simp) t hin
        refine ⟨hne, hns, fun x hx => ?_⟩
        rcases hmem x hx with hx2 | hx2
        · simp at hx2
        · exact Or.inr (by simp [hx2])
    · rw [specSplit, if_neg hsp] at ht
      by_cases hre : rest = []
      · rw [if_pos hre] at ht
        have : t = cur ++ [c] := by simpa using ht
        subst this
        refine ⟨by simp, ?_, fun x hx => ?_⟩
        · intro hsp2
          rcases List.mem_append.mp hsp2 with h2 | h2
          · exact hcur h2
          · simp at h2
            exact hsp h2.symm
        · rcases List.mem_append.mp hx with h2 | h2
          · exact Or.inl h2
          · simp at h2
            exact Or.inr (by simp [h2])
      · rw [if_neg hre] at ht
        have hcur2 : ' ' ∉ cur ++ [c] := by
          intro hsp2
          rcases List.mem_append.mp hsp2 with h2 | h2
          · exact hcur h2
          · simp at h2
            exact hsp h2.symm
        obtain ⟨hne, hns, hmem⟩ := ih (cur ++ [c]) hcur2 t ht
        refine ⟨hne, hns, fun x hx => ?_⟩
        rcases hmem x hx with hx2 | hx2
        · rcases List.mem_append.mp hx2 with h2 | h2
          · exact Or.inl h2
          · simp at h2
            exact Or.inr (by simp [h2])
        · exact Or.inr (by simp [hx2])

/-! Utilities about `requote` and `List.intercalate`. -/

theorem requote_ne_nil (t : List Char) (h : t ≠ []) : requote t ≠ [] := by
  unfold requote
  split
  · simp
  · exact h

theorem requote_no_space (t : List Char) (h : ' ' ∉ t) : requote t = t := by
  unfold requote
  rw [if_neg]
  intro hcond
  have h1 := (Bool.and_eq_true_iff.mp hcond).1
  exact h (List.mem_of_elem_eq_true h1)

theorem requote_space (t : List Char) (hsp : ' ' ∈ t) (hdq : dq ∉ t) :
    requote t = dq :: t ++ [dq] := by
  unfold requote
  rw [if_pos]
  refine Bool.and_eq_true_iff.mpr ⟨List.elem_eq_true_of_mem hsp, ?_⟩
  cases t with
  | nil => simp at hsp
  | cons a s =>
    have ha : a ≠ dq := fun hh => hdq (by simp [hh])
    simp [ha]

theorem intercalate_singleton (x : List Char) : List.intercalate [' '] [x] = x := by
  simp [List.intercalate]

theorem intercalate_cons₂ (x y : List Char) (zs : List (List Char)) :
    List.intercalate [' '] (x :: y :: zs) = x ++ ' ' :: List.intercalate [' '] (y :: zs) := by
  simp [List.intercalate, List.intersperse]

theorem intercalate_cons_cons (x : List Char) (ys : List (List Char)) (hys : ys ≠ []) :
    List.intercalate [' '] (x :: ys) = x ++ ' ' :: List.intercalate [' '] ys := by
  cases ys with
  | nil => exact absurd rfl hys
  | cons y zs => exact intercalate_cons₂ x y zs

theorem consumePlain :
    ∀ (seg : List Char) (total : Nat) (l : List Char) (pos : Nat)
      (args : List (List Char)) (cur : List Char) (qc : Char),
      (∀ c ∈ seg, c.utf8Size = 1 ∧ c ≠ dq ∧ c ≠ sq ∧ c ≠ ' ') →
      l ≠ [] → pos + seg.length + l.length = total →
      parseLoop total (seg ++ l) pos args cur false qc =
        parseLoop total l (pos + seg.length) args (cur ++ seg) false qc := by
  intro seg
  induction seg with
  | nil => intro total l pos args cur qc _ _ _; simp
  | cons c s ih =>
    intro total l pos args cur qc h hl htot
    obtain ⟨hsz, h1, h2, h3⟩ := h c (by simp)
    have hlp : 0 < l.length := List.length_pos.mpr hl
    have hpos : pos ≠ total - 1 := by
      simp only [List.length_cons] at htot
      omega
    rw [List.cons_append, psPlain total c (s ++ l) pos args cur qc h1 h2 h3 hpos, hsz]
    rw [ih total l (pos + 1) args (cur ++ [c]) qc (fun x hx => h x (by simp [hx])) hl
      (by simp only [List.length_cons] at htot ⊢; omega)]
    have e1 : pos + 1 + s.length = pos + (c :: s).length := by
      simp only [List.length_cons]
      omega
    have e2 : (cur ++ [c]) ++ s = cur ++ c :: s := by simp
    rw [e1, e2]

theorem consumePlainLast :
    ∀ (seg : List Char) (total pos : Nat) (args : List (List Char)) (cur : List Char)
      (qc : Char),
      seg ≠ [] →
      (∀ c ∈ seg, c.utf8Size = 1 ∧ c ≠ dq ∧ c ≠ sq ∧ c ≠ ' ') →
      pos + seg.length = total →
      parseLoop total seg pos args cur false qc =
        (args ++ [cur ++ seg], cur ++ seg, false, qc) := by
  intro seg
  induction seg with
  | nil => intro total pos args cur qc h _ _; exact absurd rfl h
  | cons c s ih =>
    intro total pos args cur qc _ h htot
    obtain ⟨hsz, h1, h2, h3⟩ := h c (by simp)
    cases s with
    | nil =>
      have hpos : pos = total - 1 := by
        simp only [List.length_cons, List.length_nil] at htot
        omega
      rw [psPlainLast total c [] pos args cur qc h1 h2 h3 hpos]
      simp [parseLoop]
    | cons d s2 =>
      have hpos : pos ≠ total - 1 := by
        simp only [List.length_cons] at htot
        omega
      rw [psPlain total c (d :: s2) pos args cur qc h1 h2 h3 hpos, hsz]
      rw [ih total (pos + 1) args (cur ++ [c]) qc (by simp)
        (fun x hx => h x (by simp [hx]))
        (by simp only [List.length_cons] at htot ⊢; omega)]
      simp

theorem consumeInQ :
    ∀ (u : List Char) (total : Nat) (l : List Char) (pos : Nat)
      (args : List (List Char)) (cur : List Char),
      (∀ c ∈ u, c.utf8Size = 1 ∧ c ≠ dq) → l ≠ [] →
      pos + u.length + l.length = total →
      parseLoop total (u ++ l) pos args cur true dq =
        parseLoop total l (pos + u.length) args (cur ++ u) true dq := by
  intro u
  induction u with
  | nil => intro total l pos args cur _ _ _; simp
  | cons c s ih =>
    intro total l pos args cur h hl htot
    obtain ⟨hsz, h1⟩ := h c (by simp)
    have hlp : 0 < l.length := List.length_pos.mpr hl
    have hpos : pos ≠ total - 1 := by
      simp only [List.length_cons] at htot
      omega
    rw [List.cons_append, psInQ total c (s ++ l) pos args cur h1 hpos, hsz]
    rw [ih total l (pos + 1) args (cur ++ [c]) (fun x hx => h x (by simp [hx])) hl
      (by simp only [List.length_cons] at htot ⊢; omega)]
    have e1 : pos + 1 + s.length = pos + (c :: s).length := by
      simp only [List.length_cons]
      omega
    have e2 : (cur ++ [c]) ++ s = cur ++ c :: s := by simp
    rw [e1, e2]

theorem consumeQuoted (t : List Char) (total : Nat) (l : List Char) (pos : Nat)
    (args : List (List Char)) (qc : Char)
    (ht : t ≠ []) (hchars : ∀ c ∈ t, c.utf8Size = 1 ∧ c ≠ dq) (hl : l ≠ [])
    (htot : pos + (t.length + 2) + l.length = total) :
    parseLoop total ((dq :: t ++ [dq]) ++ l) pos args [] false qc =
      parseLoop total l (pos + (t.length + 2)) args t false dq := by
  have hlp : 0 < l.length := List.length_pos.mpr hl
  rw [show (dq :: t ++ [dq]) ++ l = dq :: (t ++ ([dq] ++ l)) by simp]
  rw [psOpenQ]
  rw [consumeInQ t total ([dq] ++ l) (pos + 1) args [] hchars (by simp)
    (by simp only [List.length_append, List.length_cons, List.length_nil] at htot ⊢; omega)]
  rw [show ([dq] ++ l : List Char) = dq :: l from rfl]
  rw [psCloseQ total l (pos + 1 + t.length) args ([] ++ t) (by omega)]
  have e1 : pos + 1 + t.length + 1 = pos + (t.length + 2) := by omega
  rw [e1, List.nil_append]

theorem consumeQuotedLast (t : List Char) (total pos : Nat)
    (args : List (List Char)) (qc : Char)
    (ht : t ≠ []) (hchars : ∀ c ∈ t, c.utf8Size = 1 ∧ c ≠ dq)
    (htot : pos + (t.length + 2) = total) :
    parseLoop total (dq :: t ++ [dq]) pos args [] false qc =
      (args ++ [t], t, false, dq) := by
  rw [show (dq :: t ++ [dq] : List Char) = dq :: (t ++ [dq]) from rfl]
  rw [psOpenQ]
  rw [consumeInQ t total [dq] (pos + 1) args [] hchars (by simp)
    (by simp only [List.length_cons, List.length_nil] at htot ⊢; omega)]
  rw [show ([dq] : List Char) = dq :: [] from rfl]
  rw [psCloseQLast total [] (pos + 1 + t.length) args ([] ++ t) (by omega) (by simp [ht])]
  simp [parseLoop]

theorem intercalate_requote_ne_nil :
    ∀ (ts : List (List Char)), ts ≠ [] → (∀ t ∈ ts, t ≠ []) →
      List.intercalate [' '] (ts.map requote) ≠ [] := by
  intro ts hne htok
  cases ts with
  | nil => exact absurd rfl hne
  | cons t ts' =>
    cases ts' with
    | nil =>
      rw [List.map_cons, List.map_nil, intercalate_singleton]
      exact requote_ne_nil t (htok t (by simp))
    | cons t2 ts'' =>
      rw [List.map_cons, List.map_cons, intercalate_cons₂]
      intro hcontra
      rcases List.append_eq_nil.mp hcontra with ⟨hr, _⟩
      exact requote_ne_nil t (htok t (by simp)) hr

theorem parse_roundtrip_aux :
    ∀ (ts : List (List Char)) (total pos : Nat) (args : List (List Char)) (qc : Char),
      ts ≠ [] →
      (∀ t ∈ ts, t ≠ [] ∧ ∀ c ∈ t, c.utf8Size = 1 ∧ c ≠ dq ∧ c ≠ sq) →
      pos + (List.intercalate [' '] (ts.map requote)).length = total →
      (parseLoop total (List.intercalate [' '] (ts.map requote)) pos args [] false qc).1 =
        args ++ ts ∧
      (parseLoop total (List.intercalate [' '] (ts.map requote)) pos args [] false qc).2.2.1 =
        false := by
  intro ts
  induction ts with
  | nil => intro total pos args qc hne _ _; exact absurd rfl hne
  | cons t ts' ih =>
    intro total pos args qc _ htok htot
    obtain ⟨htne, htchars⟩ := htok t (by simp)
    have hdq : dq ∉ t := fun hm => (htchars dq hm).2.1 rfl
    cases ts' with
    | nil =>
      rw [List.map_cons, List.map_nil, intercalate_singleton] at htot ⊢
      by_cases hsp : ' ' ∈ t
      · rw [requote_space t hsp hdq] at htot ⊢
        have hlen : (dq :: t ++ [dq]).length = t.length + 2 := by simp
        rw [consumeQuotedLast t total pos args qc htne
          (fun c hc => ⟨(htchars c hc).1, (htchars c hc).2.1⟩)
          (by rw [hlen] at htot; omega)]
        simp
      · rw [requote_no_space t hsp] at htot ⊢
        rw [consumePlainLast t total pos args [] qc htne
          (fun c hc => ⟨(htchars c hc).1, (htchars c hc).2.1, (htchars c hc).2.2,
            fun he => hsp (he ▸ hc)⟩)
          (by omega)]
        simp
    | cons t2 ts'' =>
      have htok' : ∀ x ∈ t2 :: ts'', x ≠ [] ∧ ∀ c ∈ x, c.utf8Size = 1 ∧ c ≠ dq ∧ c ≠ sq :=
        fun x hx => htok x (by simp [hx])
      have htail_ne : List.intercalate [' '] ((t2 :: ts'').map requote) ≠ [] :=
        intercalate_requote_ne_nil (t2 :: ts'') (by simp)
          (fun x hx => (htok' x hx).1)
      rw [List.map_cons,
        intercalate_cons_cons (requote t) (List.map requote (t2 :: ts'')) (by simp)]
        at htot ⊢
      by_cases hsp : ' ' ∈ t
      · rw [requote_space t hsp hdq] at htot ⊢
        have hlen : (dq :: t ++ [dq]).length = t.length + 2 := by simp
        rw [show (dq :: t ++ [dq]) ++ ' ' :: List.intercalate [' '] ((t2 :: ts'').map requote) =
            (dq :: t ++ [dq]) ++ (' ' :: List.intercalate [' '] ((t2 :: ts'').map requote))
          from rfl]
        rw [consumeQuoted t total
          (' ' :: List.intercalate [' '] ((t2 :: ts'').map requote)) pos args qc htne
          (fun c hc => ⟨(htchars c hc).1, (htchars c hc).2.1⟩) (by simp)
          (by
            simp only [List.length_append, List.length_cons, hlen] at htot ⊢
            omega)]
        rw [psSpaceFlush total _ _ args t dq htne]
        have hres := ih total (pos + (t.length + 2) + 1) (args ++ [t]) dq (by simp) htok'
          (by
            simp only [List.length_append, List.length_cons, hlen] at htot ⊢
            omega)
        refine ⟨?_, hres.2⟩
        rw [hres.1]
        simp
      · rw [requote_no_space t hsp] at htot ⊢
        rw [consumePlain t total
          (' ' :: List.intercalate [' '] ((t2 :: ts'').map requote)) pos args [] qc
          (fun c hc => ⟨(htchars c hc).1, (htchars c hc).2.1, (htchars c hc).2.2,
            fun he => hsp (he ▸ hc)⟩)
          (by simp)
          (by
            simp only [List.length_append, List.length_cons] at htot ⊢
            omega)]
        rw [List.nil_append]
        rw [psSpaceFlush total _ _ args t qc htne]
        have hres := ih total (pos + t.length + 1) (args ++ [t]) qc (by simp) htok'
          (by
            simp only [List.length_append, List.length_cons] at htot ⊢
            omega)
        refine ⟨?_, hres.2⟩
        rw [hres.1]
        simp

theorem requote_chars (t : List Char) (c : Char) (h : c ∈ requote t) :
    c = dq ∨ c ∈ t := by
  unfold requote at h
  by_cases hc : (t.contains ' ' && !(t.head? == some dq)) = true
  · rw [if_pos hc] at h
    rcases List.mem_cons.mp h with h2 | h2
    · exact Or.inl h2
    · rcases List.mem_append.mp h2 with h3 | h3
      · exact Or.inr h3
      · simp at h3
        exact Or.inl h3
  · rw [if_neg hc] at h
    exact Or.inr h

theorem intercalate_requote_chars :
    ∀ (ts : List (List Char)) (c : Char),
      c ∈ List.intercalate [' '] (ts.map requote) →
      c = ' ' ∨ c = dq ∨ ∃ t ∈ ts, c ∈ t := by
  intro ts
  induction ts with
  | nil => intro c h; simp [List.intercalate] at h
  | cons t ts' ih =>
    intro c h
    cases ts' with
    | nil =>
      rw [List.map_cons, List.map_nil, intercalate_singleton] at h
      rcases requote_chars t c h with h2 | h2
      · exact Or.inr (Or.inl h2)
      · exact Or.inr (Or.inr ⟨t, by simp, h2⟩)
    | cons t2 ts'' =>
      rw [List.map_cons,
        intercalate_cons_cons (requote t) (List.map requote (t2 :: ts'')) (by simp)] at h
      rcases List.mem_append.mp h with h2 | h2
      · rcases requote_chars t c h2 with h3 | h3
        · exact Or.inr (Or.inl h3)
        · exact Or.inr (Or.inr ⟨t, by simp, h3⟩)
      · rcases List.mem_cons.mp h2 with h3 | h3
        · exact Or.inl h3
        · rcases ih c h3 with h4 | h4 | ⟨x, hx, hcx⟩
          · exact Or.inl h4
          · exact Or.inr (Or.inl h4)
          · exact Or.inr (Or.inr ⟨x, by simp [hx], hcx⟩)

theorem parseCommandLine_roundtrip (ts : List (List Char)) (hne : ts ≠ [])
    (htok : ∀ t ∈ ts, t ≠ [] ∧ ∀ c ∈ t, c.utf8Size = 1 ∧ c ≠ dq ∧ c ≠ sq) :
    parseCommandLine (List.intercalate [' '] (ts.map requote)) = some ts := by
  have hsz : ∀ c ∈ List.intercalate [' '] (ts.map requote), c.utf8Size = 1 := by
    intro c hc
    rcases intercalate_requote_chars ts c hc with h | h | ⟨t, ht, hct⟩
    · rw [h]; rfl
    · rw [h]; rfl
    · exact ((htok t ht).2 c hct).1
  have hlen : utf8Length (List.intercalate [' '] (ts.map requote)) =
      (List.intercalate [' '] (ts.map requote)).length :=
    utf8Length_all_one _ hsz
  have hres := parse_roundtrip_aux ts
    (utf8Length (List.intercalate [' '] (ts.map requote))) 0 [] (Char.ofNat 0) hne htok
    (by omega)
  show (if (parseLoop (utf8Length (List.intercalate [' '] (ts.map requote)))
        (List.intercalate [' '] (ts.map requote)) 0 [] [] false (Char.ofNat 0)).2.2.1
      then none
      else some (parseLoop (utf8Length (List.intercalate [' '] (ts.map requote)))
        (List.intercalate [' '] (ts.map requote)) 0 [] [] false (Char.ofNat 0)).1) =
    some ts
  rw [hres.2, hres.1]
  simp

/-- A command character for which the merge is provably idempotent:
single-byte, not a quote character, and the only white space it may be is a
plain space. -/
def goodCmdChar (c : Char) : Bool :=
  c.utf8Size == 1 && !(c == dq) && !(c == sq) && (!goIsSpace c || c == ' ')

/-- A desired flag for which the merge is provably idempotent: starts with
a dash and consists of good command characters. -/
def goodFlag (f : List Char) : Bool := startsDash f && f.all goodCmdChar

theorem goodCmdChar_spec (c : Char) (h : goodCmdChar c = true) :
    c.utf8Size = 1 ∧ c ≠ dq ∧ c ≠ sq ∧ (goIsSpace c = true → c = ' ') := by
  simp only [goodCmdChar, Bool.and_eq_true, Bool.or_eq_true, Bool.not_eq_true',
    beq_iff_eq] at h
  obtain ⟨⟨⟨h1, h2⟩, h3⟩, h4⟩ := h
  refine ⟨h1, beq_eq_false_iff_ne.mp h2, beq_eq_false_iff_ne.mp h3, fun hws => ?_⟩
  rcases h4 with h4 | h4
  · rw [hws] at h4; cases h4
  · exact h4

theorem goodFlag_spec (f : List Char) (h : goodFlag f = true) :
    startsDash f = true ∧ f ≠ [] ∧ ∀ c ∈ f, goodCmdChar c = true := by
  simp only [goodFlag, Bool.and_eq_true, List.all_eq_true] at h
  obtain ⟨h1, h2⟩ := h
  refine ⟨h1, ?_, fun c hc => h2 c hc⟩
  intro hnil
  subst hnil
  simp [startsDash] at h1

theorem trimSpace_mem (l : List Char) (c : Char) (h : c ∈ trimSpace l) : c ∈ l := by
  unfold trimSpace at h
  have h1 : c ∈ (l.dropWhile goIsSpace).reverse.dropWhile goIsSpace :=
    List.mem_reverse.mp h
  have h2 : c ∈ (l.dropWhile goIsSpace).reverse :=
    (List.dropWhile_sublist goIsSpace).mem h1
  have h3 : c ∈ l.dropWhile goIsSpace := List.mem_reverse.mp h2
  exact (List.dropWhile_sublist goIsSpace).mem h3

theorem trimSpace_eq_self (l : List Char)
    (hh : ∀ h, l.head? = some h → goIsSpace h = false)
    (hl : ∀ e, l.getLast? = some e → goIsSpace e = false) :
    trimSpace l = l := by
  unfold trimSpace
  have h1 : l.dropWhile goIsSpace = l := by
    cases l with
    | nil => rfl
    | cons a s =>
      rw [List.dropWhile_cons, if_neg]
      simp [hh a rfl]
  rw [h1]
  have h2 : l.reverse.dropWhile goIsSpace = l.reverse := by
    cases hrev : l.reverse with
    | nil => rfl
    | cons a s =>
      have hga : l.getLast? = some a := by
        rw [← List.head?_reverse, hrev]
        rfl
      rw [List.dropWhile_cons, if_neg]
      simp [hl a hga]
  rw [h2, List.reverse_reverse]

theorem intercalate_requote_head (t : List Char) (ts' : List (List Char)) (ht : t ≠ []) :
    (List.intercalate [' '] ((t :: ts').map requote)).head? = (requote t).head? := by
  cases ts' with
  | nil => rw [List.map_cons, List.map_nil, intercalate_singleton]
  | cons t2 ts'' =>
    rw [List.map_cons, intercalate_cons_cons _ _ (by simp)]
    cases hr : requote t with
    | nil => exact absurd hr (requote_ne_nil t ht)
    | cons a s => simp

theorem intercalate_requote_last :
    ∀ (ts : List (List Char)), ts ≠ [] → (∀ t ∈ ts, t ≠ []) →
      ∃ t ∈ ts,
        (List.intercalate [' '] (ts.map requote)).getLast? = (requote t).getLast? := by
  intro ts
  induction ts with
  | nil => intro h _; exact absurd rfl h
  | cons t ts' ih =>
    intro _ htok
    cases ts' with
    | nil =>
      refine ⟨t, by simp, ?_⟩
      rw [List.map_cons, List.map_nil, intercalate_singleton]
    | cons t2 ts'' =>
      obtain ⟨t', ht', heq⟩ := ih (by simp) (fun x hx => htok x (by simp [hx]))
      refine ⟨t', by simp [ht'], ?_⟩
      rw [List.map_cons, intercalate_cons_cons _ _ (by simp)]
      have htail_ne : List.intercalate [' '] ((t2 :: ts'').map requote) ≠ [] :=
        intercalate_requote_ne_nil _ (by simp) (fun x hx => (htok x (by simp [hx])))
      rw [List.getLast?_append_of_ne_nil _ (by simp)]
      rw [show (' ' :: List.intercalate [' '] ((t2 :: ts'').map requote)) =
          [' '] ++ List.intercalate [' '] ((t2 :: ts'').map requote) from rfl]
      rw [List.getLast?_append_of_ne_nil _ htail_ne]
      exact heq

theorem requote_head_not_space (t : List Char) (htne : t ≠ [])
    (hch : ∀ c ∈ t, c ≠ dq ∧ (goIsSpace c = true → c = ' ')) :
    ∀ h, (requote t).head? = some h → goIsSpace h = false := by
  intro h hh
  by_cases hsp : ' ' ∈ t
  · rw [requote_space t hsp (fun hm => (hch dq hm).1 rfl)] at hh
    have hdq2 : h = dq := by
      have h3 : (dq :: (t ++ [dq])).head? = some h := hh
      simpa using h3.symm
    rw [hdq2]
    rfl
  · rw [requote_no_space t hsp] at hh
    have hmem : h ∈ t := by
      cases t with
      | nil => simp at hh
      | cons a s =>
        simp only [List.head?_cons, Option.some.injEq] at hh
        simp [← hh]
    by_cases hws : goIsSpace h
    · exact absurd (((hch h hmem).2 hws) ▸ hmem) hsp
    · simpa using hws

theorem requote_last_not_space (t : List Char) (htne : t ≠ [])
    (hch : ∀ c ∈ t, c ≠ dq ∧ (goIsSpace c = true → c = ' ')) :
    ∀ e, (requote t).getLast? = some e → goIsSpace e = false := by
  intro e he
  by_cases hsp : ' ' ∈ t
  · rw [requote_space t hsp (fun hm => (hch dq hm).1 rfl)] at he
    rw [show (dq :: t ++ [dq] : List Char) = (dq :: t) ++ [dq] from rfl] at he
    rw [List.getLast?_concat] at he
    have : e = dq := by simpa using he.symm
    rw [this]
    rfl
  · rw [requote_no_space t hsp] at he
    have hmemo : e ∈ t.getLast? := he
    obtain ⟨hx, hlx⟩ := List.mem_getLast?_eq_getLast hmemo
    have hmem : e ∈ t := by
      rw [hlx]
      exact List.getLast_mem hx
    by_cases hws : goIsSpace e
    · exact absurd (((hch e hmem).2 hws) ▸ hmem) hsp
    · simpa using hws

theorem classifyArgs_stable (fsL osL : List (List Char))
    (hfs : ∀ x ∈ fsL, startsDash x = true) (hos : ∀ y ∈ osL, startsDash y = false) :
    classifyArgs (fsL ++ osL) = (fsL, osL) := by
  rw [classifyArgs_eq]
  have h1 : (fsL ++ osL).filter (fun a => startsDash a) = fsL := by
    rw [List.filter_append]
    rw [List.filter_eq_self.mpr (fun a ha => hfs a ha)]
    rw [List.filter_eq_nil.mpr (fun a ha => by simp [hos a ha])]
    simp
  have h2 : (fsL ++ osL).filter (fun a => !startsDash a) = osL := by
    rw [List.filter_append]
    rw [List.filter_eq_nil.mpr (fun a ha => by simp [hfs a ha])]
    rw [List.filter_eq_self.mpr (fun a ha => by simp [hos a ha])]
    simp
  rw [h1, h2]

theorem updateExecCommand_eq (x : List Char) (flags : List (List Char))
    (hlen : (flags.length == 0) = false) :
    updateExecCommand x flags =
      List.intercalate [' '] ((updateExecParts x flags).map requote) := by
  simp only [updateExecCommand, hlen, Bool.false_eq_true, if_false]

/-- C1 (counterexample): with a desired "flag" that does not begin with a
dash, the merge is not idempotent: the inserted token is classified as a
positional on the second run and the flag is appended again. -/
theorem c1_counterexample :
    updateExecCommand (updateExecCommand (("exe").data) [("foo").data]) [("foo").data] ≠
      updateExecCommand (("exe").data) [("foo").data] := by
  decide

/-- C1 (amended): applying the merge twice with the same desired flag list
yields a fixed point, provided every character of the command is a
single-byte non-quote character whose only allowed white space is a plain
space, and every desired flag begins with a dash and consists of such
characters. -/
theorem updateExecCommand_idempotent (cmd : List Char) (flags : List (List Char))
    (hc : ∀ c ∈ cmd, goodCmdChar c = true)
    (hf : ∀ f ∈ flags, goodFlag f = true) :
    updateExecCommand (updateExecCommand cmd flags) flags =
      updateExecCommand cmd flags := by
  by_cases hfe : flags = []
  · subst hfe
    rfl
  have hlen : (flags.length == 0) = false := by simp [List.length_eq_zero, hfe]
  have htrimchars : ∀ c ∈ trimSpace cmd, goodCmdChar c = true :=
    fun c hcmem => hc c (trimSpace_mem cmd c hcmem)
  have hparse : parseCommandLine (trimSpace cmd) = some (specSplit [] (trimSpace cmd)) := by
    apply parseCommandLine_good
    intro c hcm
    obtain ⟨h1, h2, h3, _⟩ := goodCmdChar_spec c (htrimchars c hcm)
    exact ⟨h1, h2, h3⟩
  have hgp : goParts (trimSpace cmd) = specSplit [] (trimSpace cmd) := by
    simp [goParts, hparse]
  have htoks0 := specSplit_tokens (trimSpace cmd) [] (by simp)
  cases hts : specSplit [] (trimSpace cmd) with
  | nil =>
    have h1 : updateExecParts cmd flags = [] := by
      unfold updateExecParts
      rw [hgp, hts]
    have h2 : updateExecCommand cmd flags = [] := by
      simp only [updateExecCommand, hlen, Bool.false_eq_true, if_false, h1, List.map_nil]
      rfl
    rw [h2]
    have h3 : updateExecParts [] flags = [] := by
      unfold updateExecParts
      rfl
    simp only [updateExecCommand, hlen, Bool.false_eq_true, if_false, h3, List.map_nil]
    rfl
  | cons exec args =>
    rw [hts] at htoks0
    -- facts about the tokens of the trimmed command
    have hcmdTok : ∀ t ∈ exec :: args, t ≠ [] ∧ ' ' ∉ t ∧
        ∀ c ∈ t, goodCmdChar c = true := by
      intro t htm
      obtain ⟨hne, hns, hmem⟩ := htoks0 t htm
      refine ⟨hne, hns, fun c hcm => ?_⟩
      rcases hmem c hcm with h2 | h2
      · simp at h2
      · exact htrimchars c h2
    -- the merge-1 token list
    have hparts1 : updateExecParts cmd flags =
        exec :: (addFlagsLoop flags (args.filter (fun a => startsDash a))
            (args.filter (fun a => startsDash a)) ++
          args.filter (fun a => !startsDash a)) := by
      simp only [updateExecParts, hgp, hts, classifyArgs_eq]
    have hO : updateExecCommand cmd flags =
        List.intercalate [' ']
          ((exec :: (addFlagsLoop flags (args.filter (fun a => startsDash a))
              (args.filter (fun a => startsDash a)) ++
            args.filter (fun a => !startsDash a))).map requote) := by
      simp only [updateExecCommand, hlen, Bool.false_eq_true, if_false, hparts1]
    -- the merged flag region and the positionals
    have hFmem : ∀ x ∈ addFlagsLoop flags (args.filter (fun a => startsDash a))
        (args.filter (fun a => startsDash a)),
        x ∈ args ∨ x ∈ flags := by
      intro x hx
      rw [addFlagsLoop_eq_specAppended] at hx
      rcases List.mem_append.mp hx with h2 | h2
      · exact Or.inl (List.mem_of_mem_filter h2)
      · exact Or.inr (specAppended_subset flags _ h2)
    have hFdash : ∀ x ∈ addFlagsLoop flags (args.filter (fun a => startsDash a))
        (args.filter (fun a => startsDash a)), startsDash x = true := by
      intro x hx
      rw [addFlagsLoop_eq_specAppended] at hx
      rcases List.mem_append.mp hx with h2 | h2
      · exact List.of_mem_filter h2
      · exact (goodFlag_spec x (hf x (specAppended_subset flags _ h2))).1
    have hOdash : ∀ y ∈ args.filter (fun a => !startsDash a), startsDash y = false := by
      intro y hy
      have := List.of_mem_filter hy
      simpa using this
    -- every merged token is nonempty with good characters
    have hmergedTok : ∀ t ∈ exec :: (addFlagsLoop flags
          (args.filter (fun a => startsDash a)) (args.filter (fun a => startsDash a)) ++
        args.filter (fun a => !startsDash a)),
        t ≠ [] ∧ ∀ c ∈ t, goodCmdChar c = true := by
      intro t htm
      rcases List.mem_cons.mp htm with h2 | h2
      · subst h2
        exact ⟨(hcmdTok t (by simp)).1, fun c hcm => (hcmdTok t (by simp)).2.2 c hcm⟩
      · rcases List.mem_append.mp h2 with h3 | h3
        · rcases hFmem t h3 with h4 | h4
          · exact ⟨(hcmdTok t (by simp [h4])).1, fun c hcm =>
              (hcmdTok t (by simp [h4])).2.2 c hcm⟩
          · obtain ⟨_, hne, hchars⟩ := goodFlag_spec t (hf t h4)
            exact ⟨hne, hchars⟩
        · have h4 : t ∈ args := List.mem_of_mem_filter h3
          exact ⟨(hcmdTok t (by simp [h4])).1, fun c hcm =>
            (hcmdTok t (by simp [h4])).2.2 c hcm⟩
    have hmerged : ∀ t ∈ exec :: (addFlagsLoop flags
          (args.filter (fun a => startsDash a)) (args.filter (fun a => startsDash a)) ++
        args.filter (fun a => !startsDash a)),
        t ≠ [] ∧ ∀ c ∈ t, c.utf8Size = 1 ∧ c ≠ dq ∧ c ≠ sq := by
      intro t htm
      obtain ⟨hne, hchars⟩ := hmergedTok t htm
      refine ⟨hne, fun c hcm => ?_⟩
      obtain ⟨h1, h2, h3, _⟩ := goodCmdChar_spec c (hchars c hcm)
      exact ⟨h1, h2, h3⟩
    -- trimming the merge-1 output is the identity
    have htrimO : trimSpace (updateExecCommand cmd flags) = updateExecCommand cmd flags := by
      rw [hO]
      apply trimSpace_eq_self
      · intro h hh
        rw [intercalate_requote_head exec _ (hmergedTok exec (by simp)).1] at hh
        refine requote_head_not_space exec (hmergedTok exec (by simp)).1 ?_ h hh
        intro c hcm
        obtain ⟨_, h2, _, h4⟩ := goodCmdChar_spec c ((hmergedTok exec (by simp)).2 c hcm)
        exact ⟨h2, h4⟩
      · intro e he
        obtain ⟨t, htm, heq⟩ := intercalate_requote_last _ (by simp)
          (fun x hx => (hmergedTok x hx).1)
        rw [heq] at he
        refine requote_last_not_space t (hmergedTok t htm).1 ?_ e he
        intro c hcm
        obtain ⟨_, h2, _, h4⟩ := goodCmdChar_spec c ((hmergedTok t htm).2 c hcm)
        exact ⟨h2, h4⟩
    -- re-parsing the merge-1 output returns exactly the merged token list
    have hparse2 : parseCommandLine (updateExecCommand cmd flags) =
        some (exec :: (addFlagsLoop flags (args.filter (fun a => startsDash a))
            (args.filter (fun a => startsDash a)) ++
          args.filter (fun a => !startsDash a))) := by
      rw [hO]
      exact parseCommandLine_roundtrip _ (by simp) hmerged
    have hgp2 : goParts (trimSpace (updateExecCommand cmd flags)) =
        exec :: (addFlagsLoop flags (args.filter (fun a => startsDash a))
            (args.filter (fun a => startsDash a)) ++
          args.filter (fun a => !startsDash a)) := by
      rw [htrimO]
      simp [goParts, hparse2]
    -- the second merge adds nothing
    have hskip : addFlagsLoop flags
        (addFlagsLoop flags (args.filter (fun a => startsDash a))
          (args.filter (fun a => startsDash a)))
        (addFlagsLoop flags (args.filter (fun a => startsDash a))
          (args.filter (fun a => startsDash a))) =
        addFlagsLoop flags (args.filter (fun a => startsDash a))
          (args.filter (fun a => startsDash a)) := by
      apply addFlagsLoop_skip
      intro f hfm
      exact addFlagsLoop_mem flags (args.filter (fun a => startsDash a)) hfm
    have hparts2 : updateExecParts (updateExecCommand cmd flags) flags =
        exec :: (addFlagsLoop flags (args.filter (fun a => startsDash a))
            (args.filter (fun a => startsDash a)) ++
          args.filter (fun a => !startsDash a)) := by
      have hclass := classifyArgs_stable _ _ hFdash hOdash
      simp only [updateExecParts, hgp2, hclass, hskip]
    rw [updateExecCommand_eq _ _ hlen, hparts2, ← hO]

/-- C1 witness: a plain command with an ordinary flag. -/
theorem updateExecCommand_idempotent_witness :
    updateExecCommand (updateExecCommand (("exe %U").data) [("--x").data]) [("--x").data] =
      updateExecCommand (("exe %U").data) [("--x").data] :=
  updateExecCommand_idempotent (("exe %U").data) [("--x").data] (by decide) (by decide)

end Waylandify
